import Mathlib

/-!
Verification of the multi-state sodium-channel kinetics core of the
`braincell` repository (`braincell/channel/sodium.py`, class `INa_Rsg`).

The embedding works in exact rational arithmetic.  Array values are
rationals (one compartment at a time; the batch axis is modelled as a
list of independent compartments, mirroring the `jax.vmap` structure of
the source).  The voltage-dependent rate table (`f01 .. bin`, closed-form
expressions in `exp`) enters every claim only through the 34 rate values
it produces at the given voltage, so the development is parametrised by
those values (`Rates`); all per-step algebra is translated from the
source line by line.
-/

namespace Braincell

/-- An element of the list handed to `INa_Rsg.normalize_states`.
`cell v` is a `DiffEqState` holding value `v` (it has a `.value`
attribute, so the loops in `normalize_states` write back to it);
`plain v` is a bare array such as the derived remainder `I6`
(no `.value` attribute, so the loops only rebind a local variable). -/
inductive Entry where
  | cell (v : ℚ)
  | plain (v : ℚ)
deriving DecidableEq

/-- The constant `10**(-12)` added to the denominator in
`normalize_states`. -/
def eps : ℚ := 1 / 10 ^ 12

/-- First loop of `normalize_states`: `state.value = u.math.maximum(state.value, 0)`
writes the clamp back into a `DiffEqState`; for a bare array the result of
`u.math.maximum(state, 0)` is bound to the loop variable only, so the entry
is left unchanged. -/
def clampE : Entry → Entry
  | .cell v => .cell (max v 0)
  | .plain v => .plain v

/-- The clamped value each entry contributes to `total` in the first loop of
`normalize_states` (both branches add `u.math.maximum(value, 0)`). -/
def clampVal : Entry → ℚ
  | .cell v => max v 0
  | .plain v => max v 0

/-- The running `total` accumulated by the first loop of
`normalize_states`: the sum of the clamped values of every entry. -/
def totalClamped (l : List Entry) : ℚ := (l.map clampVal).sum

/-- Second loop of `normalize_states`: `state.value = state.value / (total + 10**(-12))`
for a `DiffEqState`; for a bare array the quotient is bound to the loop
variable only, so the entry is left unchanged. -/
def divByTotal (t : ℚ) : Entry → Entry
  | .cell v => .cell (v / (t + eps))
  | .plain v => .plain v

/-- Model of `INa_Rsg.normalize_states`: clamp every entry to the non-negative range
(writing back only into entries that have a `.value`), accumulate the total
of the clamped values of every entry, then divide every `.value`-carrying
entry by `total + 10**(-12)`. -/
def normalize_states (l : List Entry) : List Entry :=
  (l.map clampE).map (divByTotal (totalClamped l))

/-- The values held by the `DiffEqState` entries of a list, in order. -/
def cellVals (l : List Entry) : List ℚ :=
  l.filterMap (fun e => match e with | .cell v => some v | .plain _ => none)

lemma totalClamped_nonneg (l : List Entry) : 0 ≤ totalClamped l := by
  unfold totalClamped
  induction l with
  | nil => simp
  | cons e t ih =>
    simp only [List.map_cons, List.sum_cons]
    have he : 0 ≤ clampVal e := by
      cases e <;> simp [clampVal]
    linarith

lemma eps_pos : 0 < eps := by norm_num [eps]

lemma cell_value_after_normalize (l : List Entry) (i : ℕ) (v : ℚ)
    (h : l[i]? = some (Entry.cell v)) :
    (normalize_states l)[i]? =
      some (Entry.cell (max v 0 / (totalClamped l + eps))) := by
  unfold normalize_states
  simp only [List.getElem?_map, h, Option.map_some']
  rfl

/-- C3: for every list passed to `normalize_states` and every
`DiffEqState` entry in it with initial value `v`, after the call the
entry holds `max v 0 / (T + 10⁻¹²)`, where `T` is the sum of the clamped
values of every entry of the list (bare-array entries included). -/
theorem normalize_states_cell_formula (l : List Entry) (i : ℕ) (v : ℚ)
    (h : l[i]? = some (Entry.cell v)) :
    (normalize_states l)[i]? =
      some (Entry.cell (max v 0 / (totalClamped l + eps))) :=
  cell_value_after_normalize l i v h

/-- Witness for C3 at the concrete list `[cell (-2), plain 3]`. -/
theorem normalize_states_cell_formula_witness :
    ([Entry.cell (-2), Entry.plain 3][0]? = some (Entry.cell (-2))) ∧
    (normalize_states [Entry.cell (-2), Entry.plain 3])[0]? =
      some (Entry.cell (max (-2) 0 / (totalClamped [Entry.cell (-2), Entry.plain 3] + eps))) :=
  ⟨rfl, normalize_states_cell_formula [Entry.cell (-2), Entry.plain 3] 0 (-2) rfl⟩

/-- C7: every `DiffEqState` value after `normalize_states` is ≥ 0. -/
theorem normalize_states_nonneg (l : List Entry) (i : ℕ) (v : ℚ)
    (h : (normalize_states l)[i]? = some (Entry.cell v)) : 0 ≤ v := by
  unfold normalize_states at h
  simp only [List.getElem?_map] at h
  rcases he : l[i]? with _ | e
  · rw [he] at h; simp at h
  · rw [he] at h
    cases e with
    | cell w =>
      simp only [Option.map_some', clampE, divByTotal, Option.some.injEq] at h
      have hv : v = max w 0 / (totalClamped l + eps) := by
        cases h
        rfl
      rw [hv]
      have ht : 0 < totalClamped l + eps := by
        have := totalClamped_nonneg l
        have := eps_pos
        linarith
      positivity
    | plain w =>
      simp only [Option.map_some', clampE, divByTotal] at h
      exact Entry.noConfusion (Option.some.inj h)

/-- Witness for C7 at the adversarial list `[cell (-5), cell 3]`, index 1. -/
theorem normalize_states_nonneg_witness :
    (normalize_states [Entry.cell (-5), Entry.cell 3])[1]? =
      some (Entry.cell (max 3 0 / (totalClamped [Entry.cell (-5), Entry.cell 3] + eps))) ∧
    0 ≤ max 3 0 / (totalClamped [Entry.cell (-5), Entry.cell 3] + eps) := by
  constructor
  · exact cell_value_after_normalize [Entry.cell (-5), Entry.cell 3] 1 3 rfl
  · exact normalize_states_nonneg [Entry.cell (-5), Entry.cell 3] 1 _
      (cell_value_after_normalize [Entry.cell (-5), Entry.cell 3] 1 3 rfl)

/-- The twelve tracked `DiffEqState` values of an `INa_Rsg` instance
(one compartment): closed states `C1..C5`, inactivated states `I1..I5`,
open state `O`, blocked state `B`. -/
structure State12 where
  c1 : ℚ
  c2 : ℚ
  c3 : ℚ
  c4 : ℚ
  c5 : ℚ
  i1 : ℚ
  i2 : ℚ
  i3 : ℚ
  i4 : ℚ
  i5 : ℚ
  o : ℚ
  b : ℚ
deriving DecidableEq

/-- The sum of the twelve tracked states, in the order written in
`INa_Rsg.pre_integral`. -/
def sumS (s : State12) : ℚ :=
  s.i1 + s.i2 + s.i3 + s.i4 + s.i5 + s.o + s.b +
    s.c1 + s.c2 + s.c3 + s.c4 + s.c5

/-- The tracked cells in the order `pre_integral` passes them to
`normalize_states`: `[C1, C2, C3, C4, C5, I1, I2, I3, I4, I5, O, B]`. -/
def trackedEntries (s : State12) : List Entry :=
  [.cell s.c1, .cell s.c2, .cell s.c3, .cell s.c4, .cell s.c5,
   .cell s.i1, .cell s.i2, .cell s.i3, .cell s.i4, .cell s.i5,
   .cell s.o, .cell s.b]

/-- The full argument list of the `normalize_states` call in
`INa_Rsg.pre_integral`: the twelve tracked cells followed by the derived
remainder `I6 = 1 - sum(tracked)`, which is a bare array. -/
def preList (s : State12) : List Entry :=
  trackedEntries s ++ [Entry.plain (1 - sumS s)]

/-- Model of `INa_Rsg.pre_integral`: derive `I6 = 1 - sum(tracked)` and call
`normalize_states` on the twelve tracked cells plus `I6`. -/
def pre_integral (s : State12) : List Entry :=
  normalize_states (preList s)

/-- Contribution of an entry to the sum of post-call cell values:
bare arrays store nothing. -/
def cellClamp : Entry → ℚ
  | .cell v => max v 0
  | .plain _ => 0

lemma sum_map_div (l : List ℚ) (c : ℚ) :
    (l.map (fun x => x / c)).sum = l.sum / c := by
  induction l with
  | nil => simp
  | cons x t ih => simp [ih, add_div]

lemma cellVals_normalize_sum_aux (t : ℚ) (l : List Entry) :
    (cellVals ((l.map clampE).map (divByTotal t))).sum =
      (l.map cellClamp).sum / (t + eps) := by
  induction l with
  | nil => simp [cellVals]
  | cons e tl ih =>
    cases e with
    | cell v =>
      simp only [List.map_cons, cellVals, List.filterMap_cons, clampE, divByTotal,
        cellClamp, List.sum_cons] at ih ⊢
      rw [ih]
      rw [add_div]
    | plain v =>
      simp only [List.map_cons, cellVals, List.filterMap_cons, clampE, divByTotal,
        cellClamp, List.sum_cons] at ih ⊢
      rw [ih]
      rw [zero_add]

lemma cellVals_normalize_sum (l : List Entry) :
    (cellVals (normalize_states l)).sum = (l.map cellClamp).sum / (totalClamped l + eps) :=
  cellVals_normalize_sum_aux (totalClamped l) l

lemma totalClamped_preList (s : State12) :
    totalClamped (preList s) =
      ((trackedEntries s).map cellClamp).sum + max (1 - sumS s) 0 := by
  simp only [totalClamped, preList, trackedEntries, List.map_append, List.map_cons,
    List.map_nil, List.sum_append, List.sum_cons, List.sum_nil, clampVal, cellClamp]
  linarith [le_max_left (1 - sumS s) (0:ℚ)]

lemma cellClamp_preList (s : State12) :
    ((preList s).map cellClamp).sum = ((trackedEntries s).map cellClamp).sum := by
  simp [preList, trackedEntries, cellClamp]

lemma one_le_totalClamped_preList (s : State12) : 1 ≤ totalClamped (preList s) := by
  rw [totalClamped_preList]
  simp only [trackedEntries, List.map_cons, List.map_nil, cellClamp, List.sum_cons,
    List.sum_nil]
  have h1 : s.c1 ≤ max s.c1 0 := le_max_left _ _
  have h2 : s.c2 ≤ max s.c2 0 := le_max_left _ _
  have h3 : s.c3 ≤ max s.c3 0 := le_max_left _ _
  have h4 : s.c4 ≤ max s.c4 0 := le_max_left _ _
  have h5 : s.c5 ≤ max s.c5 0 := le_max_left _ _
  have h6 : s.i1 ≤ max s.i1 0 := le_max_left _ _
  have h7 : s.i2 ≤ max s.i2 0 := le_max_left _ _
  have h8 : s.i3 ≤ max s.i3 0 := le_max_left _ _
  have h9 : s.i4 ≤ max s.i4 0 := le_max_left _ _
  have h10 : s.i5 ≤ max s.i5 0 := le_max_left _ _
  have h11 : s.o ≤ max s.o 0 := le_max_left _ _
  have h12 : s.b ≤ max s.b 0 := le_max_left _ _
  have hr : 1 - sumS s ≤ max (1 - sumS s) 0 := le_max_left _ _
  have hs : sumS s = s.i1 + s.i2 + s.i3 + s.i4 + s.i5 + s.o + s.b +
      s.c1 + s.c2 + s.c3 + s.c4 + s.c5 := rfl
  linarith

/-- C2 (amended): after the `normalize_states` call made by
`pre_integral`, the sum of the twelve tracked state values plus the
remainder's own normalized value — `max(I6,0)/(total+ε)`, which the
normalizer computes for the bare-array remainder but binds only to a
loop-local variable — equals 1 within `1e-9` absolute tolerance. -/
theorem pre_integral_conservation (s : State12) :
    |(cellVals (pre_integral s)).sum +
        max (1 - sumS s) 0 / (totalClamped (preList s) + eps) - 1| ≤ 1 / 10 ^ 9 := by
  have hT1 : 1 ≤ totalClamped (preList s) := one_le_totalClamped_preList s
  set T := totalClamped (preList s) with hTdef
  have hTe : (0:ℚ) < T + eps := by
    have := eps_pos
    linarith
  have hsum : (cellVals (pre_integral s)).sum = ((preList s).map cellClamp).sum / (T + eps) := by
    unfold pre_integral
    exact cellVals_normalize_sum (preList s)
  have hsplit : ((preList s).map cellClamp).sum + max (1 - sumS s) 0 = T := by
    rw [cellClamp_preList, hTdef, totalClamped_preList]
  rw [hsum, div_add_div_same, hsplit]
  have hfrac : T / (T + eps) - 1 = -(eps / (T + eps)) := by
    field_simp
  rw [hfrac, abs_neg, abs_div, abs_of_pos eps_pos, abs_of_pos hTe]
  have h1 : eps / (T + eps) ≤ eps := by
    apply div_le_self (le_of_lt eps_pos)
    linarith [eps_pos]
  have h2 : eps ≤ 1 / 10 ^ 9 := by norm_num [eps]
  linarith

/-- C2 as stated is false: seed the tracked states with `C1 = 2` and the
rest `0`.  The derived remainder `I6 = 1 - 2 = -1` is a bare array, so
`normalize_states` never writes its clamped/normalized result back; after
the call the tracked values sum to `2/(2+ε)` and the stored remainder is
still `-1`, so tracked sum plus remainder is about `0`, not `1`. -/
theorem pre_integral_conservation_counterexample :
    ¬ (|(cellVals (pre_integral ⟨2, 0, 0, 0, 0, 0, 0, 0, 0, 0, 0, 0⟩)).sum +
          (1 - sumS ⟨2, 0, 0, 0, 0, 0, 0, 0, 0, 0, 0, 0⟩) - 1| ≤ 1 / 10 ^ 9) := by
  norm_num [pre_integral, preList, trackedEntries, sumS, normalize_states, totalClamped,
    clampVal, clampE, divByTotal, cellVals, List.filterMap_cons, eps, abs_le]

lemma norm_cells (vs : List ℚ) :
    normalize_states (vs.map Entry.cell) =
      vs.map (fun v => Entry.cell (max v 0 / (totalClamped (vs.map Entry.cell) + eps))) := by
  unfold normalize_states
  generalize totalClamped (vs.map Entry.cell) = t
  induction vs with
  | nil => simp
  | cons x tl ih => simp [clampE, divByTotal, ih]

lemma totalClamped_cells (vs : List ℚ) :
    totalClamped (vs.map Entry.cell) = (vs.map (fun v => max v 0)).sum := by
  unfold totalClamped
  rw [List.map_map]
  rfl

lemma cellVals_map_cellf (g : ℚ → ℚ) (vs : List ℚ) :
    cellVals (vs.map (fun v => Entry.cell (g v))) = vs.map g := by
  induction vs with
  | nil => simp [cellVals]
  | cons x tl ih => simp [cellVals, List.filterMap_cons] at ih ⊢; exact ih

lemma forall₂_map_id {R : ℚ → ℚ → Prop} (f : ℚ → ℚ) (l : List ℚ)
    (h : ∀ a ∈ l, R (f a) a) : List.Forall₂ R (l.map f) l := by
  induction l with
  | nil => simp
  | cons x tl ih =>
    simp only [List.map_cons]
    exact List.Forall₂.cons (h x (by simp)) (ih (fun a ha => h a (by simp [ha])))

lemma renorm_close (a T : ℚ) (ha : 0 ≤ a) (haT : a ≤ T) (hT : 1 ≤ T) :
    |a / (T + eps) / (T / (T + eps) + eps) - a / (T + eps)| ≤ 1 / 10 ^ 9 := by
  have hE : eps = 1 / 10 ^ 12 := rfl
  have hden1 : (0:ℚ) < T + eps := by rw [hE]; linarith
  have hD2 : a / (T + eps) / (T / (T + eps) + eps) = a / (T + eps * (T + eps)) := by
    rw [div_div]
    rw [show (T + eps) * (T / (T + eps) + eps) = T + eps * (T + eps) by
      field_simp]
  rw [hD2]
  have hden2 : (0:ℚ) < T + eps * (T + eps) := by nlinarith [eps_pos]
  have hle : a / (T + eps * (T + eps)) ≤ a / (T + eps) := by
    rw [div_le_div_iff₀ hden2 hden1]
    have key : 0 ≤ a * (eps * (T + eps - 1)) :=
      mul_nonneg ha (mul_nonneg eps_pos.le (by linarith))
    nlinarith [key]
  rw [abs_of_nonpos (by linarith)]
  rw [neg_sub]
  rw [div_sub_div _ _ hden1.ne' hden2.ne']
  rw [div_le_iff₀ (by positivity)]
  have h1 : a * (T + eps - 1) ≤ T * (T + eps) := by
    have ha1 : a * (T + eps - 1) ≤ T * (T + eps - 1) :=
      mul_le_mul_of_nonneg_right haT (by nlinarith [eps_pos])
    have ha2 : T * (T + eps - 1) ≤ T * (T + eps) := by nlinarith [eps_pos]
    linarith
  have h2 : eps * (a * (T + eps - 1)) ≤ eps * (T * (T + eps)) :=
    mul_le_mul_of_nonneg_left h1 eps_pos.le
  have h3 : eps * (T * (T + eps)) ≤ (1 / 10 ^ 9) * ((T + eps) * (T + eps * (T + eps))) := by
    rw [hE]
    nlinarith [sq_nonneg T, sq_nonneg (T + 1)]
  nlinarith [h2, h3]

/-- C8 (amended): for a list consisting entirely of `DiffEqState` cells
whose clamped values sum to at least 1, applying `normalize_states`
twice leaves every cell within `1e-9` of its value after applying it
once.  Exact equality fails: the second pass adds `ε = 10⁻¹²` to the
denominator again (and for lists containing the bare-array remainder, or
with near-zero total, the two passes differ grossly). -/
theorem normalize_states_idempotent_approx (vs : List ℚ)
    (h : 1 ≤ totalClamped (vs.map Entry.cell)) :
    List.Forall₂ (fun a b => |a - b| ≤ 1 / 10 ^ 9)
      (cellVals (normalize_states (normalize_states (vs.map Entry.cell))))
      (cellVals (normalize_states (vs.map Entry.cell))) := by
  set T := totalClamped (vs.map Entry.cell) with hTdef
  have hTe : (0:ℚ) < T + eps := by
    have := eps_pos
    linarith
  have hg : ∀ v : ℚ, 0 ≤ max v 0 / (T + eps) := by
    intro v
    positivity
  have hmm : vs.map (fun v => Entry.cell (max v 0 / (T + eps))) =
      (vs.map (fun v => max v 0 / (T + eps))).map Entry.cell := by
    rw [List.map_map]
    rfl
  have hT' : totalClamped ((vs.map (fun v => max v 0 / (T + eps))).map Entry.cell) =
      T / (T + eps) := by
    rw [totalClamped_cells, List.map_map]
    have hcong : (vs.map ((fun v => max v 0) ∘ fun v => max v 0 / (T + eps))) =
        vs.map (fun v => max v 0 / (T + eps)) := by
      apply List.map_congr_left
      intro v _
      exact max_eq_left (hg v)
    rw [hcong]
    have hmd : vs.map (fun v => max v 0 / (T + eps)) =
        (vs.map (fun v => max v 0)).map (fun x => x / (T + eps)) := by
      rw [List.map_map]
      rfl
    rw [hmd, sum_map_div, ← totalClamped_cells]
  have houter : normalize_states (normalize_states (vs.map Entry.cell)) =
      (vs.map (fun v => max v 0 / (T + eps))).map
        (fun w => Entry.cell (max w 0 / (T / (T + eps) + eps))) := by
    rw [norm_cells vs, ← hTdef, hmm, norm_cells, hT']
  rw [houter, norm_cells vs, ← hTdef, cellVals_map_cellf, cellVals_map_cellf]
  apply forall₂_map_id
  intro a ha
  rcases List.mem_map.1 ha with ⟨v, hv, hva⟩
  have hannn : 0 ≤ a := by
    rw [← hva]
    exact hg v
  have hmax : max a 0 = a := max_eq_left hannn
  rw [hmax, ← hva]
  apply renorm_close (max v 0) T (le_max_right _ _) _ h
  have hmem : max v 0 ∈ vs.map (fun v => max v 0) := List.mem_map_of_mem _ hv
  have hnn : ∀ x ∈ vs.map (fun v => max v 0), (0:ℚ) ≤ x := by
    intro x hx
    rcases List.mem_map.1 hx with ⟨w, _, hw⟩
    rw [← hw]
    exact le_max_right _ _
  have hsle := List.single_le_sum hnn _ hmem
  rw [hTdef, totalClamped_cells]
  exact hsle

/-- C8 as stated is false: one application of `normalize_states` to
`[cell 1]` stores `1/(1+ε)`; a second application stores
`1/(1+ε+ε²)`, a strictly different rational, because `ε` is added to
the denominator again. -/
theorem normalize_states_idempotent_counterexample :
    normalize_states (normalize_states [Entry.cell 1]) ≠ normalize_states [Entry.cell 1] := by
  norm_num [normalize_states, totalClamped, clampVal, clampE, divByTotal, eps]

/-- Witness for the amended C8 at the concrete list `[cell 1]`. -/
theorem normalize_states_idempotent_approx_witness :
    (1 ≤ totalClamped ([(1:ℚ)].map Entry.cell)) ∧
    List.Forall₂ (fun a b => |a - b| ≤ 1 / 10 ^ 9)
      (cellVals (normalize_states (normalize_states ([(1:ℚ)].map Entry.cell))))
      (cellVals (normalize_states ([(1:ℚ)].map Entry.cell))) :=
  ⟨by norm_num [totalClamped, clampVal],
   normalize_states_idempotent_approx [1] (by norm_num [totalClamped, clampVal])⟩

lemma totalClamped_eraseIdx (l : List Entry) : ∀ (i : ℕ) (e : Entry),
    l[i]? = some e → totalClamped l = totalClamped (l.eraseIdx i) + clampVal e := by
  induction l with
  | nil =>
    intro i e h
    simp at h
  | cons x t ih =>
    intro i e h
    cases i with
    | zero =>
      simp only [List.getElem?_cons_zero, Option.some.injEq] at h
      subst h
      simp only [List.eraseIdx_cons_zero, totalClamped, List.map_cons, List.sum_cons]
      ring
    | succ n =>
      simp only [List.getElem?_cons_succ] at h
      have hrec := ih n e h
      simp only [List.eraseIdx_cons_succ, totalClamped, List.map_cons, List.sum_cons] at hrec ⊢
      linarith

/-- C4: a bare-array entry (such as the derived remainder `I6` handed in
by `pre_integral`) is never mutated by `normalize_states` — after the
call it holds exactly its pre-call value — even though its clamped value
was still added into the total `T`, and every `DiffEqState` entry was
divided by `T + ε` with that contribution included. -/
theorem normalize_states_plain_frame (l : List Entry) (i : ℕ) (v : ℚ)
    (h : l[i]? = some (Entry.plain v)) :
    (normalize_states l)[i]? = some (Entry.plain v) ∧
    totalClamped l = totalClamped (l.eraseIdx i) + max v 0 ∧
    (∀ (j : ℕ) (w : ℚ), l[j]? = some (Entry.cell w) →
      (normalize_states l)[j]? =
        some (Entry.cell (max w 0 / (totalClamped l + eps)))) := by
  refine ⟨?_, ?_, ?_⟩
  · unfold normalize_states
    simp only [List.getElem?_map, h, Option.map_some']
    rfl
  · have := totalClamped_eraseIdx l i (Entry.plain v) h
    simpa [clampVal] using this
  · intro j w hj
    exact cell_value_after_normalize l j w hj

/-- Witness for C4 at `[cell 2, plain (-1)]` (the shape produced by
`pre_integral` from `C1 = 2`, remainder `I6 = -1`), index 1. -/
theorem normalize_states_plain_frame_witness :
    ([Entry.cell 2, Entry.plain (-1)][1]? = some (Entry.plain (-1))) ∧
    ((normalize_states [Entry.cell 2, Entry.plain (-1)])[1]? = some (Entry.plain (-1)) ∧
      totalClamped [Entry.cell 2, Entry.plain (-1)] =
        totalClamped ([Entry.cell 2, Entry.plain (-1)].eraseIdx 1) + max (-1) 0 ∧
      (∀ (j : ℕ) (w : ℚ), [Entry.cell 2, Entry.plain (-1)][j]? = some (Entry.cell w) →
        (normalize_states [Entry.cell 2, Entry.plain (-1)])[j]? =
          some (Entry.cell (max w 0 / (totalClamped [Entry.cell 2, Entry.plain (-1)] + eps))))) :=
  ⟨rfl, normalize_states_plain_frame [Entry.cell 2, Entry.plain (-1)] 1 (-1) rfl⟩

/-- The 34 transition-rate values of the `INa_Rsg` scheme at a fixed
membrane voltage.  In the source these are the closed-form lambdas
`f01 .. fin`, `b01 .. bin` (positive multiples of `exp(V/xk)` and of the
constants `Con, Coff, Oon, Ooff` scaled by `phi`); every claim about
`update_state` is per fixed voltage, so the development is parametrised
by the values the rate table returns there. -/
structure Rates where
  f01 : ℚ
  f02 : ℚ
  f03 : ℚ
  f04 : ℚ
  f0O : ℚ
  fip : ℚ
  f11 : ℚ
  f12 : ℚ
  f13 : ℚ
  f14 : ℚ
  f1n : ℚ
  fi1 : ℚ
  fi2 : ℚ
  fi3 : ℚ
  fi4 : ℚ
  fi5 : ℚ
  fin : ℚ
  b01 : ℚ
  b02 : ℚ
  b03 : ℚ
  b04 : ℚ
  b0O : ℚ
  bip : ℚ
  b11 : ℚ
  b12 : ℚ
  b13 : ℚ
  b14 : ℚ
  b1n : ℚ
  bi1 : ℚ
  bi2 : ℚ
  bi3 : ℚ
  bi4 : ℚ
  bi5 : ℚ
  bin : ℚ
deriving DecidableEq

/-- The derived thirteenth state inside the `rhs` closure of
`update_state`: `I6 = 1 - (C1 + ... + C5 + I1 + ... + I5 + O + B)`. -/
def i6v (s : State12) : ℚ :=
  1 - (s.c1 + s.c2 + s.c3 + s.c4 + s.c5 + s.i1 + s.i2 + s.i3 + s.i4 + s.i5 + s.o + s.b)

/-- The right-hand side `rhs(S)` built inside `INa_Rsg.update_state`
(identical formulas to `compute_derivative`), translated term by term. -/
def rhs (r : Rates) (s : State12) : State12 where
  c1 := s.i1 * r.bi1 + s.c2 * r.b01 - s.c1 * (r.fi1 + r.f01)
  c2 := s.c1 * r.f01 + s.i2 * r.bi2 + s.c3 * r.b02 - s.c2 * (r.b01 + r.fi2 + r.f02)
  c3 := s.c2 * r.f02 + s.i3 * r.bi3 + s.c4 * r.b03 - s.c3 * (r.b02 + r.fi3 + r.f03)
  c4 := s.c3 * r.f03 + s.i4 * r.bi4 + s.c5 * r.b04 - s.c4 * (r.b03 + r.fi4 + r.f04)
  c5 := s.c4 * r.f04 + s.i5 * r.bi5 + s.o * r.b0O - s.c5 * (r.b04 + r.fi5 + r.f0O)
  i1 := s.c1 * r.fi1 + s.i2 * r.b11 - s.i1 * (r.bi1 + r.f11)
  i2 := s.i1 * r.f11 + s.c2 * r.fi2 + s.i3 * r.b12 - s.i2 * (r.b11 + r.bi2 + r.f12)
  i3 := s.i2 * r.f12 + s.c3 * r.fi3 + s.i4 * r.b13 - s.i3 * (r.b12 + r.bi3 + r.f13)
  i4 := s.i3 * r.f13 + s.c4 * r.fi4 + s.i5 * r.b14 - s.i4 * (r.b13 + r.bi4 + r.f14)
  i5 := s.i4 * r.f14 + s.c5 * r.fi5 + i6v s * r.b1n - s.i5 * (r.b14 + r.bi5 + r.f1n)
  o := s.c5 * r.f0O + s.b * r.bip + i6v s * r.bin - s.o * (r.b0O + r.fip + r.fin)
  b := s.o * r.fip - s.b * r.bip

/-- The stacking order of `State_value` in `update_state`:
`[C1, C2, C3, C4, C5, I1, I2, I3, I4, I5, O, B]`. -/
def toVec (s : State12) : List ℚ :=
  [s.c1, s.c2, s.c3, s.c4, s.c5, s.i1, s.i2, s.i3, s.i4, s.i5, s.o, s.b]

/-- Componentwise sum of two stacked states (used to express directional
differences of `rhs`). -/
def sadd (s d : State12) : State12 where
  c1 := s.c1 + d.c1
  c2 := s.c2 + d.c2
  c3 := s.c3 + d.c3
  c4 := s.c4 + d.c4
  c5 := s.c5 + d.c5
  i1 := s.i1 + d.i1
  i2 := s.i2 + d.i2
  i3 := s.i3 + d.i3
  i4 := s.i4 + d.i4
  i5 := s.i5 + d.i5
  o := s.o + d.o
  b := s.b + d.b

def dotL (xs ys : List ℚ) : ℚ := (List.zipWith (fun a b => a * b) xs ys).sum

def matVecL (m : List (List ℚ)) (x : List ℚ) : List ℚ := m.map (fun row => dotL row x)

def vaddL (xs ys : List ℚ) : List ℚ := List.zipWith (fun a b => a + b) xs ys

def vsubL (xs ys : List ℚ) : List ℚ := List.zipWith (fun a b => a - b) xs ys

def smulL (c : ℚ) (xs : List ℚ) : List ℚ := xs.map (fun a => c * a)

def matSubL (m n : List (List ℚ)) : List (List ℚ) := List.zipWith vsubL m n

def smulMatL (c : ℚ) (m : List (List ℚ)) : List (List ℚ) := m.map (smulL c)

/-- The 12×12 Jacobian `A = ∂rhs/∂S` that `jax.jacfwd` computes inside
`update_state`.  Because `rhs` is affine in `S` at fixed rates (theorem
`rhs_affine`), forward-mode differentiation returns exactly these
state-independent coefficients; the `- b1n` / `- bin` terms in the `I5`
and `O` rows come from the derived `I6 = 1 - sum(S)`. -/
def Amat (r : Rates) : List (List ℚ) :=
  [[-(r.fi1 + r.f01), r.b01, 0, 0, 0, r.bi1, 0, 0, 0, 0, 0, 0],
   [r.f01, -(r.b01 + r.fi2 + r.f02), r.b02, 0, 0, 0, r.bi2, 0, 0, 0, 0, 0],
   [0, r.f02, -(r.b02 + r.fi3 + r.f03), r.b03, 0, 0, 0, r.bi3, 0, 0, 0, 0],
   [0, 0, r.f03, -(r.b03 + r.fi4 + r.f04), r.b04, 0, 0, 0, r.bi4, 0, 0, 0],
   [0, 0, 0, r.f04, -(r.b04 + r.fi5 + r.f0O), 0, 0, 0, 0, r.bi5, r.b0O, 0],
   [r.fi1, 0, 0, 0, 0, -(r.bi1 + r.f11), r.b11, 0, 0, 0, 0, 0],
   [0, r.fi2, 0, 0, 0, r.f11, -(r.b11 + r.bi2 + r.f12), r.b12, 0, 0, 0, 0],
   [0, 0, r.fi3, 0, 0, 0, r.f12, -(r.b12 + r.bi3 + r.f13), r.b13, 0, 0, 0],
   [0, 0, 0, r.fi4, 0, 0, 0, r.f13, -(r.b13 + r.bi4 + r.f14), r.b14, 0, 0],
   [-r.b1n, -r.b1n, -r.b1n, -r.b1n, r.fi5 - r.b1n, -r.b1n, -r.b1n, -r.b1n,
    r.f14 - r.b1n, -(r.b14 + r.bi5 + r.f1n) - r.b1n, -r.b1n, -r.b1n],
   [-r.bin, -r.bin, -r.bin, -r.bin, r.f0O - r.bin, -r.bin, -r.bin, -r.bin,
    -r.bin, -r.bin, -(r.b0O + r.fip + r.fin) - r.bin, r.bip - r.bin],
   [0, 0, 0, 0, 0, 0, 0, 0, 0, 0, r.fip, -r.bip]]

/-- The constant (state-independent) part of the affine `rhs`, from the
`1·b1n` and `1·bin` inflow of the derived `I6`. -/
def bvec (r : Rates) : List ℚ :=
  [0, 0, 0, 0, 0, 0, 0, 0, 0, r.b1n, r.bin, 0]

/-- The term `b = dS - A·S` computed in `update_state`. -/
def bval (r : Rates) (s : State12) : List ℚ :=
  vsubL (toVec (rhs r s)) (matVecL (Amat r) (toVec s))

def idMat12 : List (List ℚ) :=
  [[1, 0, 0, 0, 0, 0, 0, 0, 0, 0, 0, 0],
   [0, 1, 0, 0, 0, 0, 0, 0, 0, 0, 0, 0],
   [0, 0, 1, 0, 0, 0, 0, 0, 0, 0, 0, 0],
   [0, 0, 0, 1, 0, 0, 0, 0, 0, 0, 0, 0],
   [0, 0, 0, 0, 1, 0, 0, 0, 0, 0, 0, 0],
   [0, 0, 0, 0, 0, 1, 0, 0, 0, 0, 0, 0],
   [0, 0, 0, 0, 0, 0, 1, 0, 0, 0, 0, 0],
   [0, 0, 0, 0, 0, 0, 0, 1, 0, 0, 0, 0],
   [0, 0, 0, 0, 0, 0, 0, 0, 1, 0, 0, 0],
   [0, 0, 0, 0, 0, 0, 0, 0, 0, 1, 0, 0],
   [0, 0, 0, 0, 0, 0, 0, 0, 0, 0, 1, 0],
   [0, 0, 0, 0, 0, 0, 0, 0, 0, 0, 0, 1]]

/-- Find the first row with a nonzero leading coefficient (partial
pivoting step of the elimination). -/
def pivotRow : List (List ℚ) → Option (List ℚ × List (List ℚ))
  | [] => none
  | r :: rest =>
    if r.headD 0 ≠ 0 then some (r, rest)
    else
      match pivotRow rest with
      | some (p, others) => some (p, r :: others)
      | none => none

/-- Subtract the multiple of the pivot row that cancels the leading
coefficient of `r`, then drop the leading column. -/
def elimAgainst (p r : List ℚ) : List ℚ :=
  (List.zipWith (fun a bq => bq - r.headD 0 / p.headD 1 * a) p r).tail

/-- Gaussian elimination with back-substitution on an `n × (n+1)`
augmented system; the first argument is fuel, one elimination step per
row of the original system. -/
def gelim : List Unit → List (List ℚ) → Option (List ℚ)
  | [], _ => some []
  | _ :: fuel, rows =>
    match pivotRow rows with
    | none => none
    | some (p, rest) =>
      match gelim fuel (rest.map (elimAgainst p)) with
      | none => none
      | some xs =>
        some ((p.tail.getLastD 0 - dotL p.tail.dropLast xs) / p.headD 1 :: xs)

def augment (m : List (List ℚ)) (v : List ℚ) : List (List ℚ) :=
  List.zipWith (fun row c => row ++ [c]) m v

/-- One fuel token per tracked state: the per-compartment system is
12×12. -/
def fuel12 : List Unit :=
  [(), (), (), (), (), (), (), (), (), (), (), ()]

/-- Exact-arithmetic model of the batched `u.math.linalg.solve` call for
one compartment's 12×12 system: eliminate, then keep the candidate only
if it actually solves the system (which, over exact arithmetic, is the
input/output behavior of the library solve on a nonsingular system;
`none` stands for the non-finite output it produces otherwise). -/
def solve12 (m : List (List ℚ)) (v : List ℚ) : Option (List ℚ) :=
  (gelim fuel12 (augment m v)).bind (fun xs => if matVecL m xs = v then some xs else none)

/-- Model of `INa_Rsg.update_state` for one compartment: with
`dt = get_magnitude(brainstate.environ.get_dt()) / 2` (half the global
timestep), assemble `A` (the Jacobian of `rhs`), `b = dS - A·S`,
`lhs = Id - dt·A`, `rhs_val = S + dt·b`, and solve `lhs · S_next = rhs_val`;
the solution is written back into the twelve state cells. -/
def update_state (r : Rates) (s : State12) (dtg : ℚ) : Option (List ℚ) :=
  solve12 (matSubL idMat12 (smulMatL (dtg / 2) (Amat r)))
    (vaddL (toVec s) (smulL (dtg / 2) (bval r s)))

/-- The batched `update_state`.  Each list element carries one
compartment's rate values (its voltage) and state.  The source
`jax.vmap`s `jax.jacfwd(rhs_point)` over the stacked states only, and
`rhs_point` closes over the ENTIRE voltage vector and selects column 0
(`rhs(S_point.reshape(N, 1))[:, 0]`), whose rates are evaluated at
`V[0]`; so every compartment's Jacobian `A_all[m]` — and with it the
shared `lhs = Id - dt·A` and the `A·S` term of `b` — uses compartment
0's rate values, while `dS = rhs(State_value)` is evaluated elementwise
at each compartment's own voltage.  `update_state_coupled rA r s` is one
compartment's solve with the Jacobian rates `rA` of compartment 0 and its
own rates `r` in the elementwise `dS`; the batch maps it over the
compartments. -/
def update_state_coupled (rA r : Rates) (s : State12) (dtg : ℚ) : Option (List ℚ) :=
  solve12 (matSubL idMat12 (smulMatL (dtg / 2) (Amat rA)))
    (vaddL (toVec s)
      (smulL (dtg / 2) (vsubL (toVec (rhs r s)) (matVecL (Amat rA) (toVec s)))))

def update_state_batch (ps : List (Rates × State12)) (dtg : ℚ) : List (Option (List ℚ)) :=
  match ps with
  | [] => []
  | p0 :: _ => ps.map (fun p => update_state_coupled p0.1 p.1 p.2 dtg)

lemma solve12_sound (m : List (List ℚ)) (v xs : List ℚ) (h : solve12 m v = some xs) :
    matVecL m xs = v := by
  unfold solve12 at h
  rcases Option.bind_eq_some.1 h with ⟨ys, _, hf⟩
  by_cases hc : matVecL m ys = v
  · rw [if_pos hc] at hf
    cases hf
    exact hc
  · rw [if_neg hc] at hf
    exact absurd hf (by simp)

/-- C1 (amended): whenever `update_state` writes back a next state
`S_next`, that state satisfies the backward-Euler system
`(I − dt·A) · S_next = S + dt·b` with `A` the Jacobian of `rhs` at the
current state, `b = rhs(S) − A·S`, and `dt` equal to HALF the global
timestep: the source sets `dt = u.get_magnitude(brainstate.environ.get_dt()) / 2`. -/
theorem update_state_halfstep_backward_euler (r : Rates) (s : State12) (dtg : ℚ)
    (xs : List ℚ) (h : update_state r s dtg = some xs) :
    matVecL (matSubL idMat12 (smulMatL (dtg / 2) (Amat r))) xs =
      vaddL (toVec s) (smulL (dtg / 2) (bval r s)) := by
  unfold update_state at h
  exact solve12_sound _ _ _ h

/-- Representative strictly positive rate values (every entry of the
source's rate table is strictly positive for all voltages). -/
def rOnes : Rates := ⟨1, 1, 1, 1, 1, 1, 1, 1, 1, 1, 1, 1, 1, 1, 1, 1, 1,
  1, 1, 1, 1, 1, 1, 1, 1, 1, 1, 1, 1, 1, 1, 1, 1, 1⟩

/-- A concrete pre-step state: all occupancy in `C1`. -/
def sTest : State12 := ⟨1, 0, 0, 0, 0, 0, 0, 0, 0, 0, 0, 0⟩

/-- The state `update_state` writes back from `sTest` at global timestep
`dtg = 2` (computed by running the embedded solver). -/
def xsTest : List ℚ :=
  [19178 / 43497, 16885 / 115992, 5899 / 115992, 6433 / 347976, 2431 / 347976,
   761 / 4296, 31499 / 347976, 3425 / 86994, 467 / 28998, 761 / 115992,
   14 / 4833, 7 / 4833]

lemma update_state_at_sTest : update_state rOnes sTest 2 = some xsTest := by
  norm_num [update_state, solve12, fuel12, gelim, pivotRow, elimAgainst, augment,
    matVecL, dotL, vaddL, vsubL, smulL, matSubL, smulMatL, idMat12, Amat, bval,
    toVec, rhs, i6v, rOnes, sTest, xsTest]

/-- C1 as stated is false: at global timestep `dtg = 2`, rate values all
1 and the state concentrated in `C1`, the state written back by
`update_state` does not satisfy `(I − dt·A) · S_next = S + dt·b` with
`dt` the FULL global timestep — the source halves the timestep
(`dt = get_dt()/2`), so only the half-step system is satisfied. -/
theorem update_state_full_dt_counterexample :
    update_state rOnes sTest 2 = some xsTest ∧
    matVecL (matSubL idMat12 (smulMatL 2 (Amat rOnes))) xsTest ≠
      vaddL (toVec sTest) (smulL 2 (bval rOnes sTest)) := by
  refine ⟨update_state_at_sTest, ?_⟩
  norm_num [matVecL, dotL, vaddL, vsubL, smulL, matSubL, smulMatL, idMat12, Amat,
    bval, toVec, rhs, i6v, rOnes, sTest, xsTest]

/-- Witness for the amended C1 at `rOnes`, `sTest`, `dtg = 2`. -/
theorem update_state_halfstep_backward_euler_witness :
    update_state rOnes sTest 2 = some xsTest ∧
    matVecL (matSubL idMat12 (smulMatL (2 / 2) (Amat rOnes))) xsTest =
      vaddL (toVec sTest) (smulL (2 / 2) (bval rOnes sTest)) :=
  ⟨update_state_at_sTest,
   update_state_halfstep_backward_euler rOnes sTest 2 xsTest update_state_at_sTest⟩

/-- Affinity of `rhs`: it is affine in the stacked state at fixed rate values:
`rhs(S) = A·S + b₀` with `A = Amat` (the matrix `jax.jacfwd` returns)
and a state-independent `b₀`. -/
lemma rhs_affine (r : Rates) (s : State12) :
    toVec (rhs r s) = vaddL (matVecL (Amat r) (toVec s)) (bvec r) := by
  simp only [toVec, rhs, i6v, Amat, bvec, matVecL, dotL, vaddL, List.map_cons,
    List.map_nil, List.zipWith_cons_cons, List.zipWith_nil_right, List.zipWith_nil_left,
    List.sum_cons, List.sum_nil, List.cons.injEq, and_true]
  refine ⟨by ring, by ring, by ring, by ring, by ring, by ring, by ring, by ring,
    by ring, by ring, by ring, by ring⟩

/-- C6: at fixed voltage (fixed rate values) the `rhs` built inside
`update_state` is exactly affine in the stacked state: the directional
difference `rhs(S+D) − rhs(S)` (what forward-mode differentiation
measures) is independent of the basepoint `S`, and the additive term
`b = rhs(S) − A·S` re-derived at any other state — in particular at the
post-step state — is the same as at the pre-step state. -/
theorem rhs_affine_fixed_voltage (r : Rates) (s s' d : State12) :
    vsubL (toVec (rhs r (sadd s d))) (toVec (rhs r s)) =
      vsubL (toVec (rhs r (sadd s' d))) (toVec (rhs r s')) ∧
    vsubL (toVec (rhs r s)) (matVecL (Amat r) (toVec s)) =
      vsubL (toVec (rhs r s')) (matVecL (Amat r) (toVec s')) := by
  constructor
  · simp only [toVec, rhs, i6v, sadd, vsubL, List.zipWith_cons_cons,
      List.zipWith_nil_right, List.zipWith_nil_left, List.cons.injEq, and_true]
    refine ⟨by ring, by ring, by ring, by ring, by ring, by ring, by ring, by ring,
      by ring, by ring, by ring, by ring⟩
  · simp only [toVec, rhs, i6v, Amat, matVecL, dotL, vsubL, List.map_cons,
      List.map_nil, List.zipWith_cons_cons, List.zipWith_nil_right,
      List.zipWith_nil_left, List.sum_cons, List.sum_nil, List.cons.injEq, and_true]
    refine ⟨by ring, by ring, by ring, by ring, by ring, by ring, by ring, by ring,
      by ring, by ring, by ring, by ring⟩

/-- Rate values distinct from `rOnes`, standing for a second, different
membrane voltage in the batch. -/
def rTwos : Rates := ⟨2, 2, 2, 2, 2, 2, 2, 2, 2, 2, 2, 2, 2, 2, 2, 2, 2,
  2, 2, 2, 2, 2, 2, 2, 2, 2, 2, 2, 2, 2, 2, 2, 2, 2⟩

/-- The state the batched `update_state` writes back for the SECOND
compartment of the batch `[(rOnes, sTest), (rTwos, sTest)]` at
`dtg = 2`: its linear system uses compartment 0's Jacobian `A(rOnes)`. -/
def xsBatchSecond : List ℚ :=
  [-5141 / 43497, 16885 / 57996, 5899 / 57996, 6433 / 173988, 2431 / 173988,
   761 / 2148, 31499 / 173988, 3425 / 43497, 467 / 14499, 761 / 57996,
   28 / 4833, 14 / 4833]

/-- The state an independent batch-size-1 `update_state` writes back for
the same second compartment (`rTwos`, `sTest`, `dtg = 2`). -/
def xsSolo : List ℚ :=
  [55640911 / 170330955, 4875122 / 34066191, 2282332 / 34066191,
   1861592 / 56776985, 2877296 / 170330955, 1970746 / 11355397,
   18262064 / 170330955, 3326808 / 56776985, 1051552 / 34066191,
   567392 / 34066191, 109920 / 11355397, 73280 / 11355397]

set_option maxHeartbeats 1000000 in
lemma update_state_coupled_second :
    update_state_coupled rOnes rTwos sTest 2 = some xsBatchSecond := by
  norm_num [update_state_coupled, solve12, fuel12, gelim, pivotRow, elimAgainst,
    augment, matVecL, dotL, vaddL, vsubL, smulL, matSubL, smulMatL, idMat12,
    Amat, toVec, rhs, i6v, rOnes, rTwos, sTest, xsBatchSecond]

lemma update_state_batch_at_mixed :
    (update_state_batch [(rOnes, sTest), (rTwos, sTest)] 2)[1]? =
      some (update_state_coupled rOnes rTwos sTest 2) := rfl

set_option maxHeartbeats 1000000 in
lemma update_state_solo_second :
    update_state rTwos sTest 2 = some xsSolo := by
  norm_num [update_state, solve12, fuel12, gelim, pivotRow, elimAgainst,
    augment, matVecL, dotL, vaddL, vsubL, smulL, matSubL, smulMatL, idMat12,
    Amat, bval, toVec, rhs, i6v, rTwos, sTest, xsSolo]

/-- C9 as stated is false: in a batch of two compartments with different
voltages (rate values `rOnes` and `rTwos`), `rhs_point` closes over the
full voltage vector and selects column 0, so `jax.vmap(jax.jacfwd(...))`
gives BOTH compartments the Jacobian at compartment 0's voltage; the
second compartment is then solved against `I − dt·A(V₀)` and its written
back `C1` component differs from the independent batch-size-1 solve by
about `0.445` — far beyond floating tolerance. -/
theorem update_state_batch_counterexample :
    (update_state_batch [(rOnes, sTest), (rTwos, sTest)] 2)[1]? =
      some (some xsBatchSecond) ∧
    update_state rTwos sTest 2 = some xsSolo ∧
    ¬ (|xsBatchSecond.headD 0 - xsSolo.headD 0| ≤ 1 / 1000) :=
  ⟨update_state_batch_at_mixed.trans (congrArg some update_state_coupled_second),
   update_state_solo_second,
   by norm_num [xsBatchSecond, xsSolo, abs_le]⟩

/-- C9 (amended): batch independence holds exactly when the two
compartments share one voltage (one set of rate values): the batched
`update_state` then equals the two independent batch-size-1 solves; and
even in a mixed-voltage batch the FIRST compartment — whose voltage is
the one `rhs_point`'s column-0 selection hands to the vmapped Jacobian —
matches its independent solve.  For different voltages the claim fails
(see the counterexample): the Jacobian `A` and the system matrix
`I − dt·A` of every compartment are evaluated at compartment 0's
voltage. -/
theorem update_state_batch_uniform_voltage (r r2 : Rates) (s1 s2 : State12) (dtg : ℚ) :
    (update_state_batch [(r, s1), (r2, s2)] dtg)[0]? = some (update_state r s1 dtg) ∧
    update_state_batch [(r, s1), (r, s2)] dtg =
      [update_state r s1 dtg, update_state r s2 dtg] :=
  ⟨rfl, rfl⟩

/-- The ion information consumed read-only by `current`: reversal
potential `E` and concentration `C`, one value per compartment. -/
structure IonInfoM where
  E : List ℚ
  C : List ℚ
deriving DecidableEq

/-- The stored per-compartment values of the twelve `DiffEqState` cells
of an `INa_Rsg` instance. -/
structure ChannelState where
  c1 : List ℚ
  c2 : List ℚ
  c3 : List ℚ
  c4 : List ℚ
  c5 : List ℚ
  i1 : List ℚ
  i2 : List ℚ
  i3 : List ℚ
  i4 : List ℚ
  i5 : List ℚ
  o : List ℚ
  b : List ℚ
deriving DecidableEq

/-- Model of `INa_Rsg.current`: `return self.g_max * self.O.value * (Na.E - V)`,
elementwise over compartments.  The method body is a single expression
with no assignment, so the channel state and the ion info are returned
unchanged alongside the elementwise result. -/
def current (g_max : ℚ) (ch : ChannelState) (V : List ℚ) (na : IonInfoM) :
    List ℚ × ChannelState × IonInfoM :=
  (List.zipWith (fun ov ev => g_max * ov * ev) ch.o
      (List.zipWith (fun e v => e - v) na.E V),
   ch, na)

lemma getElem?_zipWith (f : ℚ → ℚ → ℚ) : ∀ (l1 l2 : List ℚ) (i : ℕ) (a bq : ℚ),
    l1[i]? = some a → l2[i]? = some bq → (List.zipWith f l1 l2)[i]? = some (f a bq) := by
  intro l1
  induction l1 with
  | nil =>
    intro l2 i a bq h1 _
    simp at h1
  | cons x t ih =>
    intro l2 i a bq h1 h2
    cases l2 with
    | nil => simp at h2
    | cons y u =>
      cases i with
      | zero =>
        simp only [List.getElem?_cons_zero, Option.some.injEq] at h1 h2
        subst h1
        subst h2
        simp
      | succ n =>
        simp only [List.getElem?_cons_succ] at h1 h2
        simpa using ih u n a bq h1 h2

/-- C10: `current(V, Na)` returns `g_max · O · (Na.E − V)` computed
elementwise from the current open-state occupancy, one value per
compartment, and has no side effect: the channel state (every cell) and
the ion info (`Na.E`, `Na.C`) are exactly unchanged. -/
theorem current_formula_and_pure (g : ℚ) (ch : ChannelState) (V : List ℚ)
    (na : IonInfoM) (i : ℕ) (ov e v : ℚ)
    (ho : ch.o[i]? = some ov) (he : na.E[i]? = some e) (hv : V[i]? = some v) :
    ((current g ch V na).1)[i]? = some (g * ov * (e - v)) ∧
    (current g ch V na).2.1 = ch ∧ (current g ch V na).2.2 = na := by
  refine ⟨?_, rfl, rfl⟩
  unfold current
  exact getElem?_zipWith _ _ _ i ov (e - v) ho
    (getElem?_zipWith _ _ _ i e v he hv)

/-- Witness for C10: one compartment with `g_max = 2`, `O = 1/2`,
`E = 3`, `V = 1`; the current is `2 · (1/2) · (3 − 1) = 2`. -/
theorem current_formula_and_pure_witness :
    ((current 2 ⟨[0], [0], [0], [0], [0], [0], [0], [0], [0], [0], [1/2], [0]⟩
        [1] ⟨[3], [5]⟩).1)[0]? = some (2 * (1/2) * (3 - 1)) ∧
    (current 2 ⟨[0], [0], [0], [0], [0], [0], [0], [0], [0], [0], [1/2], [0]⟩
        [1] ⟨[3], [5]⟩).2.1 =
      ⟨[0], [0], [0], [0], [0], [0], [0], [0], [0], [0], [1/2], [0]⟩ ∧
    (current 2 ⟨[0], [0], [0], [0], [0], [0], [0], [0], [0], [0], [1/2], [0]⟩
        [1] ⟨[3], [5]⟩).2.2 = ⟨[3], [5]⟩ :=
  current_formula_and_pure 2 _ [1] _ 0 (1/2) 3 1 rfl rfl rfl

end Braincell
